import Mathlib

set_option maxHeartbeats 1600000
set_option maxRecDepth 10000

/-!
Shallow embedding of the ED2K Link Purifier (src/purifier.js).

JavaScript strings are modelled as `List Char` (Unicode code points).
The JS regular expressions used by the program are concatenations of
literal characters and character-class repetitions (greedy, with
backtracking); they are embedded by a small backtracking engine over
`RItem` sequences that mirrors the leftmost / greedy-first semantics of
the JS engine.  Global `replace` / `exec` loops are embedded by fuelled
scanners that walk the string left to right, exactly as `lastIndex`
advances in JS.
-/

/-- The JS `\s` class (also the set trimmed by `String.prototype.trim`):
space, tab, line feed, vertical tab, form feed, carriage return, NBSP,
Ogham space, the U+2000–200A range, line/paragraph separator, narrow
no-break space, medium mathematical space, ideographic space, BOM. -/
def jsWS (c : Char) : Bool :=
  c == ' ' || c == '\t' || c == '\n' || c.toNat == 11 || c.toNat == 12 || c == '\r' ||
  c.toNat == 0xA0 || c.toNat == 0x1680 || (0x2000 ≤ c.toNat && c.toNat ≤ 0x200A) ||
  c.toNat == 0x2028 || c.toNat == 0x2029 || c.toNat == 0x202F || c.toNat == 0x205F ||
  c.toNat == 0x3000 || c.toNat == 0xFEFF

/-- The JS `\d` class. -/
def isDigitChar (c : Char) : Bool := '0' ≤ c && c ≤ '9'

/-- The class `[A-F0-9]` under the `i` flag: hexadecimal digits of either case. -/
def isHexCI (c : Char) : Bool :=
  isDigitChar c || ('A' ≤ c && c ≤ 'F') || ('a' ≤ c && c ≤ 'f')

/-- Characters NOT matched by `.` in a JS regex without the `s` flag:
line feed, carriage return, line separator, paragraph separator. -/
def isLineTermDot (c : Char) : Bool :=
  c == '\n' || c == '\r' || c.toNat == 0x2028 || c.toNat == 0x2029

/-- ASCII case folding, used to embed the regex `i` flag on the ASCII
literals and classes appearing in the program's patterns. -/
def asciiFold (c : Char) : Char :=
  if 'A' ≤ c && c ≤ 'Z' then Char.ofNat (c.toNat + 32) else c

/-- CJK ranges of the test `/^ed2k:[㐀-䶿一-鿿豈-﫿]+\/\//`. -/
def cjkChar (c : Char) : Bool :=
  (0x3400 ≤ c.toNat && c.toNat ≤ 0x4DBF) || (0x4E00 ≤ c.toNat && c.toNat ≤ 0x9FFF) ||
  (0xF900 ≤ c.toNat && c.toNat ≤ 0xFAFF)

/-- The noise class of `cleanProtocolPrefix`:
`[㐀-䶿一-鿿豈-﫿＀-￯\s]`. -/
def noiseChar (c : Char) : Bool :=
  cjkChar c || (0xFF00 ≤ c.toNat && c.toNat ≤ 0xFFEF) || jsWS c

/-- JS `String.prototype.indexOf` for a single character. -/
def jsIndexOfChar (c : Char) : List Char → Option Nat
  | [] => none
  | a :: rest => if a == c then some 0 else (jsIndexOfChar c rest).map (· + 1)

/-- Prefix test on strings (JS `startsWith`, and the step test of
`indexOf`), splitting on the pattern first so that an empty pattern
accepts without inspecting the text. -/
def isPrefixOfB : List Char → List Char → Bool
  | [], _ => true
  | a :: as, l =>
    match l with
    | [] => false
    | b :: bs => a == b && isPrefixOfB as bs

/-- JS `String.prototype.indexOf` for a substring: index of the first
position where `pat` occurs. -/
def firstIdxOfSub (pat : List Char) : List Char → Option Nat
  | [] => if pat.isEmpty then some 0 else none
  | a :: rest =>
    if isPrefixOfB pat (a :: rest) then some 0 else (firstIdxOfSub pat rest).map (· + 1)

/-- JS `String.prototype.includes` for a substring. -/
def containsSub (pat l : List Char) : Bool := (firstIdxOfSub pat l).isSome

/-- JS `String.prototype.indexOf(c, from)` (search from an offset). -/
def jsIndexOfCharFrom (c : Char) (k : Nat) (l : List Char) : Option Nat :=
  (jsIndexOfChar c (l.drop k)).map (· + k)

/-- JS `String.prototype.endsWith` for a single character. -/
def endsWithChar (c : Char) (l : List Char) : Bool := l.getLast? == some c

/-- Remove trailing `\s` characters (right half of JS `trim`). -/
def dropTrailingWS (l : List Char) : List Char := (l.reverse.dropWhile jsWS).reverse

/-- JS `String.prototype.trim`. -/
def jsTrim (l : List Char) : List Char := dropTrailingWS (l.dropWhile jsWS)

/-- JS `String.prototype.split('\n')` on `List Char`. -/
def splitOnChar (c : Char) : List Char → List (List Char)
  | [] => [[]]
  | a :: rest =>
    match splitOnChar c rest with
    | [] => [[a]]
    | h :: t => if a == c then [] :: h :: t else (a :: h) :: t

/-- JS `Array.prototype.findIndex`. -/
def jsFindIndex {α : Type} (p : α → Bool) : List α → Option Nat
  | [] => none
  | a :: rest => if p a then some 0 else (jsFindIndex p rest).map (· + 1)

/-- One regex item: a character class repeated between `lo` and `hi`
times (`hi = none` is unbounded), matched greedily.  All patterns used
by purifier.js are concatenations of such items. -/
structure RItem where
  p : Char → Bool
  lo : Nat
  hi : Option Nat

/-- Single occurrence of a character class. -/
def one (p : Char → Bool) : RItem := ⟨p, 1, some 1⟩

/-- Kleene star of a character class (greedy). -/
def star (p : Char → Bool) : RItem := ⟨p, 0, none⟩

/-- One-or-more of a character class (greedy). -/
def plus (p : Char → Bool) : RItem := ⟨p, 1, none⟩

/-- Literal character (outside letters the `i` flag is irrelevant). -/
def chr (c : Char) : RItem := one (fun x => x == c)

/-- Literal character under the regex `i` flag. -/
def chrCI (c : Char) : RItem := one (fun x => asciiFold x == asciiFold c)

/-- Literal string as a sequence of exact-character items. -/
def litStr (s : String) : List RItem := s.toList.map chr

/-- Literal string as a sequence of case-insensitive items. -/
def litCI (s : String) : List RItem := s.toList.map chrCI

/-- Greedy backtracking over one item's repetition count: try `n`
characters first, then `n-1`, …, down to `lo`; `f` matches the rest of
the pattern on the remaining string, returning the length it consumed. -/
def tryFrom (f : List Char → Option Nat) (s : List Char) (lo : Nat) : Nat → Option Nat
  | 0 => if lo == 0 then f s else none
  | n + 1 =>
    match f (s.drop (n + 1)) with
    | some m => some (n + 1 + m)
    | none => if n + 1 ≤ lo then none else tryFrom f s lo n

/-- Match a sequence of items at the start of `s` with the greedy-first
backtracking order of the JS engine; returns the length of the overall
match (the extent of `match[0]`). -/
def seqMatch : List RItem → List Char → Option Nat
  | [], _ => some 0
  | it :: its, s =>
    let maxRun := (s.takeWhile it.p).length
    let hi := match it.hi with | none => maxRun | some h => min h maxRun
    if hi < it.lo then none else tryFrom (fun t => seqMatch its t) s it.lo hi

/-- Ordered alternatives (for the one alternation `(?:^|[\s<>\[\(])`
appearing in the patterns): first alternative that matches wins. -/
def altsMatch (alts : List (List RItem)) (s : List Char) : Option Nat :=
  match alts with
  | [] => none
  | a :: rest =>
    match seqMatch a s with
    | some n => some n
    | none => altsMatch rest s

/-- A pattern, parameterised by whether the scanner sits at index 0
(the `^` anchor can only fire there, the flags carry no `m`). -/
def RPat : Type := Bool → List (List RItem)

/-- Fuelled left-to-right scan collecting all non-overlapping matches,
as the `while ((match = pattern.exec(text)) !== null)` loop does with a
global regex. -/
def scanMatchesF (pat : RPat) : Nat → List Char → Bool → List (List Char)
  | 0, _, _ => []
  | _ + 1, [], _ => []
  | fuel + 1, a :: rest, atStart =>
    match altsMatch (pat atStart) (a :: rest) with
    | some (n + 1) =>
      (a :: rest).take (n + 1) :: scanMatchesF pat fuel ((a :: rest).drop (n + 1)) false
    | _ => scanMatchesF pat fuel rest false

/-- All matches of `pat` in `s`, left to right, non-overlapping. -/
def scanMatches (pat : RPat) (s : List Char) : List (List Char) :=
  scanMatchesF pat s.length s true

/-- Fuelled global `String.prototype.replace(pattern, f)`: each match is
replaced by `f match`, unmatched characters are copied. -/
def replaceScanF (pat : RPat) (f : List Char → List Char) :
    Nat → List Char → Bool → List Char
  | 0, s, _ => s
  | _ + 1, [], _ => []
  | fuel + 1, a :: rest, atStart =>
    match altsMatch (pat atStart) (a :: rest) with
    | some (n + 1) =>
      f ((a :: rest).take (n + 1)) ++ replaceScanF pat f fuel ((a :: rest).drop (n + 1)) false
    | _ => a :: replaceScanF pat f fuel rest false

/-- Global replace of `pat` by `f` in `s`. -/
def replaceScan (pat : RPat) (f : List Char → List Char) (s : List Char) : List Char :=
  replaceScanF pat f s.length s true

/-- Value of one hexadecimal digit character, or failure. -/
def hexDigitVal (c : Char) : Option Nat :=
  if '0' ≤ c && c ≤ '9' then some (c.toNat - 48)
  else if 'A' ≤ c && c ≤ 'F' then some (c.toNat - 55)
  else if 'a' ≤ c && c ≤ 'f' then some (c.toNat - 87)
  else none

/-- Read one `%hh` escape: the byte value and the remaining characters.
Fails when `%` is not followed by two hexadecimal digits (the URIError
case of `decodeURIComponent`). -/
def pctByte : List Char → Option (Nat × List Char)
  | '%' :: a :: b :: rest => do
    let x ← hexDigitVal a
    let y ← hexDigitVal b
    pure (16 * x + y, rest)
  | _ => none

/-- Read `n` UTF-8 continuation bytes (`%hh` escapes in `0x80..0xBF`),
accumulating into the code point `acc`. -/
def utf8Cont : Nat → Nat → List Char → Option (Nat × List Char)
  | 0, acc, s => some (acc, s)
  | n + 1, acc, s => do
    let (b, r) ← pctByte s
    if 0x80 ≤ b && b < 0xC0 then utf8Cont n (acc * 0x40 + (b - 0x80)) r else none

/-- Fuelled body of `decodeURIComponent`: percent-escapes are decoded as
strict UTF-8 (multi-byte sequences must be complete, not overlong, no
surrogates, max U+10FFFF); any malformation yields `none` (the thrown
URIError).  Other characters pass through. -/
def decodeF : Nat → List Char → Option (List Char)
  | 0, s => if s.isEmpty then some [] else none
  | _ + 1, [] => some []
  | fuel + 1, c :: rest =>
    if c == '%' then do
      let (b, r1) ← pctByte (c :: rest)
      if b < 0x80 then do
        let t ← decodeF fuel r1
        pure (Char.ofNat b :: t)
      else if b < 0xC0 then none
      else if b < 0xE0 then do
        let (cp, r2) ← utf8Cont 1 (b - 0xC0) r1
        if 0x80 ≤ cp && cp < 0xD800 then do
          let t ← decodeF fuel r2
          pure (Char.ofNat cp :: t)
        else none
      else if b < 0xF0 then do
        let (cp, r2) ← utf8Cont 2 (b - 0xE0) r1
        if 0x800 ≤ cp && (cp < 0xD800 || 0xDFFF < cp) then do
          let t ← decodeF fuel r2
          pure (Char.ofNat cp :: t)
        else none
      else if b < 0xF8 then do
        let (cp, r2) ← utf8Cont 3 (b - 0xF0) r1
        if 0x10000 ≤ cp && cp ≤ 0x10FFFF then do
          let t ← decodeF fuel r2
          pure (Char.ofNat cp :: t)
        else none
      else none
    else do
      let t ← decodeF fuel rest
      pure (c :: t)

/-- Embedding of `decodeURIComponent`, `none` standing for the thrown `URIError`. -/
def decodeURIComponentOpt (s : List Char) : Option (List Char) := decodeF s.length s

/-- Result record of `purifyLink`: `{ link, isValid, wasFixed }`. -/
structure RepairResult where
  link : List Char
  isValid : Bool
  wasFixed : Bool

/-- The canonical protocol token `'ed2k://'`. -/
def canonProto : List Char := "ed2k://".toList

/-- The file marker `'|file|'`. -/
def fileMarker : List Char := "|file|".toList

/-- The test `/<[^>]*>/.test(s)`: true exactly when some `<` is
followed (anywhere later) by a `>`. -/
def hasTag : List Char → Bool
  | [] => false
  | c :: rest => (c == '<' && rest.contains '>') || hasTag rest

/-- The pattern `<[^>]*>` of pass 1. -/
def tagPat : RPat := fun _ => [[chr '<', star (fun c => c != '>'), chr '>']]

/-- Pass 1's `replace(/<[^>]*>/g, '')`. -/
def stripTags (s : List Char) : List Char := replaceScan tagPat (fun _ => []) s

/-- Items of the test `/^e[^:]*k[^:]*:\/\//i`. -/
def dirtyProtoItems : List RItem :=
  [chrCI 'e', star (fun c => c != ':'), chrCI 'k', star (fun c => c != ':')] ++ litStr "://"

/-- Items of the test `/^ed2k:[\u3400-\u4DBF\u4E00-\u9FFF\uF900-\uFAFF]+\/\//i`. -/
def cjkProtoItems : List RItem :=
  litCI "ed2k:" ++ [plus cjkChar] ++ litStr "//"

/-- Items of the test `/^ed2k:\/[^\/]+\//i`. -/
def oneSlashItems : List RItem :=
  litCI "ed2k:" ++ [chr '/', plus (fun c => c != '/'), chr '/']

/-- The dirty-protocol condition guarding pass 3 of `purifyLink`
(disjunction of the three anchored tests). -/
def dirtyProtoTest (s : List Char) : Bool :=
  (seqMatch dirtyProtoItems s).isSome || (seqMatch cjkProtoItems s).isSome ||
    (seqMatch oneSlashItems s).isSome

/-- Function `cleanProtocolPrefix`: remove CJK/fullwidth/whitespace noise from the
segment between `://` and the first `|` (or nothing after `://` when no
pipe exists). -/
def cleanProtocolPrefix (l : List Char) : List Char :=
  match firstIdxOfSub "://".toList l with
  | none => l
  | some idx =>
    let afterProto := idx + 3
    let e := match jsIndexOfCharFrom '|' afterProto l with
      | some j => j
      | none => afterProto
    (l.take e).filter (fun c => !(noiseChar c)) ++ l.drop e

/-- Items of the anchored scheme pattern `/^[^:]*:\/\/+/` used by pass 4's
`replace(..., 'ed2k://')`. -/
def schemeItems : List RItem :=
  [star (fun c => c != ':'), chr ':', ⟨fun c => c == '/', 2, none⟩]

/-- Pass 4's `replace(/^[^:]*:\/\/+/, 'ed2k://')` (anchored, at most one
match, greedy extent). -/
def replaceSchemePre (s : List Char) : List Char :=
  match seqMatch schemeItems s with
  | some n => canonProto ++ s.drop n
  | none => s

/-- Pass 1 of `purifyLink`: strip HTML tag markup. -/
def pass1 (st : List Char × Bool) : List Char × Bool :=
  if hasTag st.1 then (stripTags st.1, true) else st

/-- Pass 2 of `purifyLink`: percent-decode once if the string has a `%`
and decoding changes it; a decode failure is swallowed. -/
def pass2 (st : List Char × Bool) : List Char × Bool :=
  if st.1.contains '%' then
    match decodeURIComponentOpt st.1 with
    | some d => if d == st.1 then st else (d, true)
    | none => st
  else st

/-- Pass 3 of `purifyLink`: dirty-protocol repair.  Under the dirty
test, if a `|` exists then everything before the first `|file|` is
replaced by `ed2k://` (or, lacking a marker, the prefix is
noise-cleaned); otherwise the string is noise-cleaned. -/
def pass3 (st : List Char × Bool) : List Char × Bool :=
  if dirtyProtoTest st.1 then
    match jsIndexOfChar '|' st.1 with
    | some _ =>
      match firstIdxOfSub fileMarker st.1 with
      | some i => (canonProto ++ st.1.drop i, true)
      | none =>
        let c := cleanProtocolPrefix st.1
        if c == st.1 then st else (c, true)
    | none => st
  else
    let c := cleanProtocolPrefix st.1
    if c == st.1 then st else (c, true)

/-- Pass 4 of `purifyLink`: protocol normalisation.  Sets `wasFixed`
unconditionally whenever the string does not already start with
`ed2k://`. -/
def pass4 (st : List Char × Bool) : List Char × Bool :=
  if isPrefixOfB canonProto st.1 then st
  else if isPrefixOfB fileMarker st.1 then (canonProto ++ st.1, true)
  else (replaceSchemePre st.1, true)

/-- Pass 5 of `purifyLink`: remove whitespace from the segment before
the first `|`. -/
def pass5 (st : List Char × Bool) : List Char × Bool :=
  match jsIndexOfChar '|' st.1 with
  | some i =>
    let pre := st.1.take i
    if pre.any jsWS then (pre.filter (fun c => !(jsWS c)) ++ st.1.drop i, true) else st
  | none => st

/-- Pass 6 of `purifyLink`: append a trailing `/` when the string
contains `|file|` and does not already end with `/`. -/
def pass6 (st : List Char × Bool) : List Char × Bool :=
  if !(endsWithChar '/' st.1) && containsSub fileMarker st.1 then (st.1 ++ ['/'], true)
  else st

/-- Pass 7 of `purifyLink`: trim surrounding whitespace. -/
def pass7 (st : List Char × Bool) : List Char × Bool :=
  let t := jsTrim st.1
  if t == st.1 then st else (t, true)

/-- Strip a literal pattern from the front of a string under the regex
`i` flag, returning the remainder. -/
def stripPrefixCI : List Char → List Char → Option (List Char)
  | [], l => some l
  | _ :: _, [] => none
  | p :: ps, a :: l => if asciiFold a == asciiFold p then stripPrefixCI ps l else none

/-- The validator `validateEd2kLink`, regex
`/^ed2k:\/\/\|file\|[^|]+\|\d+\|[A-F0-9]{32}\|.*\|?\/?$/i`.
Embedded as the (deterministic) parse the backtracking regex performs:
`[^|]+\|` is forced to stop at the first pipe, `\d+\|` at the first
non-digit, `[A-F0-9]{32}` is a fixed width, and `.*\|?\/?$` accepts the
remainder exactly when it contains no line terminator (the optional
`|`/`/` are themselves matched by the greedy `.*`). -/
def validateEd2kLink (l : List Char) : Bool :=
  match stripPrefixCI "ed2k://|file|".toList l with
  | none => false
  | some r =>
    let name := r.takeWhile (fun c => c != '|')
    if name.isEmpty then false
    else
      match r.dropWhile (fun c => c != '|') with
      | '|' :: r2 =>
        let ds := r2.takeWhile isDigitChar
        if ds.isEmpty then false
        else
          match r2.dropWhile isDigitChar with
          | '|' :: r3 =>
            if (r3.take 32).length == 32 && (r3.take 32).all isHexCI then
              match r3.drop 32 with
              | '|' :: rest => rest.all (fun c => !(isLineTermDot c))
              | _ => false
            else false
          | _ => false
      | _ => false

/-- Function `purifyLink`: run the seven repair passes, then package the result;
`wasFixed` is additionally forced when the final string differs from the
original input. -/
def purifyLink (link : List Char) : RepairResult :=
  let st := pass7 (pass6 (pass5 (pass4 (pass3 (pass2 (pass1 (link, false)))))))
  ⟨st.1, validateEd2kLink st.1, st.2 || (st.1 != link)⟩

/-- Character class `[^\s<>]`. -/
def notWsAngle (c : Char) : Bool := !(jsWS c) && c != '<' && c != '>'

/-- Character class `[^\n\r<>]`. -/
def noNlAngle (c : Char) : Bool := c != '\n' && c != '\r' && c != '<' && c != '>'

/-- Extraction pattern 1: `/<[^>]*>(ed2k[^<]*)<\/[^>]*>/gi`.  The code
reads the candidate from `match[0] || match[1]`; `match[0]` is never the
empty string, so the candidate is always the full match, tags included. -/
def extrPat1 : RPat := fun _ =>
  [[chr '<', star (fun c => c != '>'), chr '>'] ++ litCI "ed2k" ++
    [star (fun c => c != '<'), chr '<', chr '/', star (fun c => c != '>'), chr '>']]

/-- Extraction pattern 2: `/ed2k[^:]*:%[0-9A-F]{2}[^\s<>]*/gi`. -/
def extrPat2 : RPat := fun _ =>
  [litCI "ed2k" ++
    [star (fun c => c != ':'), chr ':', chr '%', ⟨isHexCI, 2, some 2⟩, star notWsAngle]]

/-- Extraction pattern 3: `/ed2k[^:]*:\/\/[^\n\r<>]+/gi`. -/
def extrPat3 : RPat := fun _ =>
  [litCI "ed2k" ++ [star (fun c => c != ':')] ++ litStr "://" ++ [plus noNlAngle]]

/-- Extraction pattern 4 (fuzzy protocol):
`/e[^\s<>]{0,20}d[^\s<>]{0,20}2[^\s<>]{0,20}k[^\s<>]*:\/\/[^\n\r<>]+/gi`. -/
def extrPat4 : RPat := fun _ =>
  [[chrCI 'e', ⟨notWsAngle, 0, some 20⟩, chrCI 'd', ⟨notWsAngle, 0, some 20⟩,
    chr '2', ⟨notWsAngle, 0, some 20⟩, chrCI 'k', star notWsAngle] ++
    litStr "://" ++ [plus noNlAngle]]

/-- Extraction pattern 5: `/[^\s<>]*:\/\/[\s]*\|file\|[^\n\r<>]*/gi`. -/
def extrPat5 : RPat := fun _ =>
  [[star notWsAngle] ++ litStr "://" ++ [star jsWS] ++ litCI "|file|" ++ [star noNlAngle]]

/-- Core of extraction pattern 6 after its leading group. -/
def extrPat6core : List RItem :=
  litCI "ed2k" ++ [star notWsAngle] ++ litCI "|file|" ++ [star noNlAngle]

/-- Extraction pattern 6: `/(?:^|[\s<>\[\(])ed2k[^\s<>]*\|file\|[^\n\r<>]*/gi`.
At index 0 the `^` branch of the group is tried first; elsewhere only the
delimiter-class branch can fire (no `m` flag). -/
def extrPat6 : RPat := fun atStart =>
  if atStart then
    [extrPat6core,
     one (fun c => jsWS c || c == '<' || c == '>' || c == '[' || c == '(') :: extrPat6core]
  else
    [one (fun c => jsWS c || c == '<' || c == '>' || c == '[' || c == '(') :: extrPat6core]

/-- Extraction pattern 7 (marker-only fallback):
`/\|file\|[^|]+\|\d+\|[A-F0-9]{32}\|.*\|?\/?/gi`. -/
def extrPat7 : RPat := fun _ =>
  [litCI "|file|" ++
    [plus (fun c => c != '|'), chr '|', plus isDigitChar, chr '|',
     ⟨isHexCI, 32, some 32⟩, chr '|', star (fun c => !(isLineTermDot c)),
     ⟨fun c => c == '|', 0, some 1⟩, ⟨fun c => c == '/', 0, some 1⟩]]

/-- The ordered pattern array of `extractPotentialLinks`. -/
def extrPatterns : List RPat :=
  [extrPat1, extrPat2, extrPat3, extrPat4, extrPat5, extrPat6, extrPat7]

/-- The longest-span merge performed for each match inside
`extractPotentialLinks`: discard a match that is a substring of a
collected candidate, replace the first collected candidate that is a
substring of the match, otherwise append. -/
def mergeStep (links : List (List Char)) (cand : List Char) : List (List Char) :=
  match jsFindIndex (fun l => containsSub cand l) links with
  | some _ => links
  | none =>
    match jsFindIndex (fun l => containsSub l cand) links with
    | some i => links.set i cand
    | none => links ++ [cand]

/-- Function `extractPotentialLinks`: run the seven patterns in order over one
line, merging every match into the candidate list. -/
def extractPotentialLinks (line : List Char) : List (List Char) :=
  extrPatterns.foldl (fun acc pat => (scanMatches pat line).foldl mergeStep acc) []

/-- Replacement of the broken-protocol pre-processing pass
(`processText` step 1): a matched split token is rewritten to the
canonical `'ed2k://'` exactly when it contains a literal `\n` or `\r`;
otherwise the match is kept verbatim. -/
def fixBrokenProto (m : List Char) : List Char :=
  if m.contains '\n' || m.contains '\r' then canonProto else m

/-- The pattern `/e\s*d\s*2\s*k\s*:\s*\/\s*\//gim` of that pass. -/
def brokenProtoPat : RPat := fun _ =>
  [[chrCI 'e', star jsWS, chrCI 'd', star jsWS, chr '2', star jsWS, chrCI 'k',
    star jsWS, chr ':', star jsWS, chr '/', star jsWS, chr '/']]

/-- Pre-processing step 1 of `processText`. -/
def preprocess1 (t : List Char) : List Char := replaceScan brokenProtoPat fixBrokenProto t

/-- Pre-processing step 2: `replace(/\|\/(ed2k:)/gi, '|/\n$1')`. -/
def preprocess2 (t : List Char) : List Char :=
  replaceScan (fun _ => [[chr '|', chr '/'] ++ litCI "ed2k:"])
    (fun m => "|/\n".toList ++ m.drop 2) t

/-- Pre-processing step 3: `replace(/%7C\/(ed2k:)/gi, '%7C/\n$1')`. -/
def preprocess3 (t : List Char) : List Char :=
  replaceScan (fun _ => [[chr '%', chr '7', chrCI 'C', chr '/'] ++ litCI "ed2k:"])
    (fun m => "%7C/\n".toList ++ m.drop 4) t

/-- Pre-processing step 4: `replace(/\|(ed2k:)/gi, '|\n$1')`. -/
def preprocess4 (t : List Char) : List Char :=
  replaceScan (fun _ => [[chr '|'] ++ litCI "ed2k:"])
    (fun m => "|\n".toList ++ m.drop 1) t

/-- Pre-processing step 5: `replace(/%7C(ed2k:)/gi, '%7C\n$1')`. -/
def preprocess5 (t : List Char) : List Char :=
  replaceScan (fun _ => [[chr '%', chr '7', chrCI 'C'] ++ litCI "ed2k:"])
    (fun m => "%7C\n".toList ++ m.drop 3) t

/-- All pre-processing of `processText`, in program order. -/
def preprocess (t : List Char) : List Char :=
  preprocess5 (preprocess4 (preprocess3 (preprocess2 (preprocess1 t))))

/-- The statistics record mutated by `processText` (module object
`stats` in the source). -/
structure Stats where
  total : Nat
  valid : Nat
  invalid : Nat
  fixed : Nat
  duplicates : Nat
  failedLinks : List (List Char)

/-- State after `stats.reset()`: all counters zero, `failedLinks` empty. -/
def statsReset : Stats := ⟨0, 0, 0, 0, 0, []⟩

/-- The per-candidate body of `processText`'s inner loop: bump `total`,
repair and validate, then update the unique set and exactly one of
`valid` (plus possibly `fixed`), `duplicates`, or `invalid`/`failedLinks`. -/
def processCandidate (st : List (List Char) × Stats) (raw : List Char) :
    List (List Char) × Stats :=
  let set := st.1
  let s := { st.2 with total := st.2.total + 1 }
  let r := purifyLink raw
  if r.isValid then
    if set.contains r.link then (set, { s with duplicates := s.duplicates + 1 })
    else (set ++ [r.link],
      { s with valid := s.valid + 1, fixed := if r.wasFixed then s.fixed + 1 else s.fixed })
  else (set, { s with invalid := s.invalid + 1, failedLinks := s.failedLinks ++ [raw] })

/-- The per-line body of `processText`: trim, skip blank lines, extract
candidates, and fold the candidate loop. -/
def processLine (st : List (List Char) × Stats) (line : List Char) :
    List (List Char) × Stats :=
  let l := jsTrim line
  if l.isEmpty then st else (extractPotentialLinks l).foldl processCandidate st

/-- Function `processText` run on freshly reset statistics: pre-process, split
into lines, process every line; returns the insertion-ordered unique
valid links and the final statistics. -/
def processText (t : List Char) : List (List Char) × Stats :=
  (splitOnChar '\n' (preprocess t)).foldl processLine ([], statsReset)

/-- Candidates of a whole run, in processing order (used to expose the
candidate loop of `processText` as a single fold). -/
def allCandidatesOf (t : List Char) : List (List Char) :=
  ((splitOnChar '\n' (preprocess t)).map
    (fun line => let l := jsTrim line; if l.isEmpty then [] else extractPotentialLinks l)).flatten

/-! ## Helper lemmas -/

/-- A fold preserves any invariant its step preserves. -/
theorem foldlPres {σ α : Type} {P : σ → Prop} (f : σ → α → σ)
    (hf : ∀ s a, P s → P (f s a)) : ∀ (l : List α) (s : σ), P s → P (List.foldl f s l)
  | [], _, h => h
  | a :: l, s, h => foldlPres f hf l (f s a) (hf s a h)

/-- Step `processCandidate` preserves the counter conservation equation. -/
theorem processCandidate_conserves (st : List (List Char) × Stats) (c : List Char)
    (h : st.2.total = st.2.valid + st.2.duplicates + st.2.invalid) :
    (processCandidate st c).2.total =
      (processCandidate st c).2.valid + (processCandidate st c).2.duplicates +
        (processCandidate st c).2.invalid := by
  rcases st with ⟨set, s⟩
  unfold processCandidate
  dsimp only at h ⊢
  split
  · split
    · dsimp only; omega
    · dsimp only; omega
  · dsimp only; omega

/-- Step `processLine` preserves the counter conservation equation. -/
theorem processLine_conserves (st : List (List Char) × Stats) (line : List Char)
    (h : st.2.total = st.2.valid + st.2.duplicates + st.2.invalid) :
    (processLine st line).2.total =
      (processLine st line).2.valid + (processLine st line).2.duplicates +
        (processLine st line).2.invalid := by
  unfold processLine
  by_cases he : (jsTrim line).isEmpty
  · simpa [he] using h
  · simp only [he, if_false, Bool.false_eq_true]
    exact foldlPres processCandidate processCandidate_conserves _ st h

/-- C1. For every input text, after `processText` completes the final
statistics satisfy `total = valid + duplicates + invalid`: each
extracted candidate bumps `total` once and exactly one of the three
outcome counters. -/
theorem c1_stats_conservation (t : List Char) :
    (processText t).2.total =
      (processText t).2.valid + (processText t).2.duplicates + (processText t).2.invalid := by
  unfold processText
  exact foldlPres processLine processLine_conserves _ ([], statsReset) rfl

/-- Step `processCandidate` preserves `invalid = |failedLinks|`. -/
theorem processCandidate_failed (st : List (List Char) × Stats) (c : List Char)
    (h : st.2.failedLinks.length = st.2.invalid) :
    (processCandidate st c).2.failedLinks.length = (processCandidate st c).2.invalid := by
  rcases st with ⟨set, s⟩
  unfold processCandidate
  dsimp only at h ⊢
  split
  · split
    · dsimp only; omega
    · dsimp only; omega
  · dsimp only
    simp only [List.length_append, List.length_cons, List.length_nil]
    omega

/-- Step `processLine` preserves `invalid = |failedLinks|`. -/
theorem processLine_failed (st : List (List Char) × Stats) (line : List Char)
    (h : st.2.failedLinks.length = st.2.invalid) :
    (processLine st line).2.failedLinks.length = (processLine st line).2.invalid := by
  unfold processLine
  by_cases he : (jsTrim line).isEmpty
  · simpa [he] using h
  · simp only [he, if_false, Bool.false_eq_true]
    exact foldlPres processCandidate processCandidate_failed _ st h

/-- C9. The reset state clears the `invalid` counter and `failedLinks`
together, and after any `processText` run the number of entries in
`failedLinks` equals the `invalid` counter: only the invalid branch of
the candidate loop touches either. -/
theorem c9_failed_links_invariant :
    statsReset.invalid = 0 ∧ statsReset.failedLinks = [] ∧
      ∀ t : List Char, (processText t).2.failedLinks.length = (processText t).2.invalid := by
  refine ⟨rfl, rfl, fun t => ?_⟩
  unfold processText
  exact foldlPres processLine processLine_failed _ ([], statsReset) rfl

/-- C3. The three strictness vectors of the validator: a 32-hex hash
with a decimal size is accepted; a 31-character hash is rejected; a
non-digit size is rejected. -/
theorem c3_validator_strictness :
    validateEd2kLink ("ed2k://|file|a.mp4|123|".toList ++ List.replicate 32 'A' ++ "|/".toList)
        = true ∧
      validateEd2kLink ("ed2k://|file|a.mp4|123|".toList ++ List.replicate 31 'A' ++ "|/".toList)
        = false ∧
      validateEd2kLink ("ed2k://|file|a.mp4|abc|".toList ++ List.replicate 32 'A' ++ "|/".toList)
        = false := by
  refine ⟨by decide, by decide, by decide⟩

/-- C2 counterexample: repairing `"http://abc|file|x"` yields
`"ed2k://abc|file|x/"`, and repairing that output again moves the
leftover noise `abc` out and yields the different string
`"ed2k://|file|x/"`; so `repair` is not idempotent. -/
theorem c2_not_idempotent_counterexample :
    (purifyLink (purifyLink "http://abc|file|x".toList).link).link ≠
      (purifyLink "http://abc|file|x".toList).link := by decide

/-- C4 counterexample: on input `"abc"` every repair pass returns its
input string unchanged and the returned link equals the input, yet
`wasFixed` is `true` (the protocol-normalisation pass sets it
unconditionally), refuting the claimed "if and only if". -/
theorem c4_wasfixed_counterexample :
    (pass1 ("abc".toList, false)).1 = "abc".toList ∧
    (pass2 (pass1 ("abc".toList, false))).1 = "abc".toList ∧
    (pass3 (pass2 (pass1 ("abc".toList, false)))).1 = "abc".toList ∧
    (pass4 (pass3 (pass2 (pass1 ("abc".toList, false))))).1 = "abc".toList ∧
    (pass5 (pass4 (pass3 (pass2 (pass1 ("abc".toList, false)))))).1 = "abc".toList ∧
    (pass6 (pass5 (pass4 (pass3 (pass2 (pass1 ("abc".toList, false))))))).1 = "abc".toList ∧
    (pass7 (pass6 (pass5 (pass4 (pass3 (pass2 (pass1 ("abc".toList, false)))))))).1
        = "abc".toList ∧
    (purifyLink "abc".toList).link = "abc".toList ∧
    (purifyLink "abc".toList).wasFixed = true := by
  decide

/-- Pass 1 either returns its state unchanged or raises the flag. -/
theorem pass1_cases (st : List Char × Bool) : pass1 st = st ∨ (pass1 st).2 = true := by
  unfold pass1
  split
  · exact Or.inr rfl
  · exact Or.inl rfl

/-- Pass 2 either returns its state unchanged or raises the flag. -/
theorem pass2_cases (st : List Char × Bool) : pass2 st = st ∨ (pass2 st).2 = true := by
  unfold pass2
  split
  · split
    · split
      · exact Or.inl rfl
      · exact Or.inr rfl
    · exact Or.inl rfl
  · exact Or.inl rfl

/-- Pass 3 either returns its state unchanged or raises the flag. -/
theorem pass3_cases (st : List Char × Bool) : pass3 st = st ∨ (pass3 st).2 = true := by
  unfold pass3
  dsimp only
  split
  · split
    · split
      · exact Or.inr rfl
      · split
        · exact Or.inl rfl
        · exact Or.inr rfl
    · exact Or.inl rfl
  · split
    · exact Or.inl rfl
    · exact Or.inr rfl

/-- Pass 4 either returns its state unchanged or raises the flag. -/
theorem pass4_cases (st : List Char × Bool) : pass4 st = st ∨ (pass4 st).2 = true := by
  unfold pass4
  split
  · exact Or.inl rfl
  · split
    · exact Or.inr rfl
    · exact Or.inr rfl

/-- Pass 5 either returns its state unchanged or raises the flag. -/
theorem pass5_cases (st : List Char × Bool) : pass5 st = st ∨ (pass5 st).2 = true := by
  unfold pass5
  dsimp only
  split
  · split
    · exact Or.inr rfl
    · exact Or.inl rfl
  · exact Or.inl rfl

/-- Pass 6 either returns its state unchanged or raises the flag. -/
theorem pass6_cases (st : List Char × Bool) : pass6 st = st ∨ (pass6 st).2 = true := by
  unfold pass6
  split
  · exact Or.inr rfl
  · exact Or.inl rfl

/-- Pass 7 either returns its state unchanged or raises the flag. -/
theorem pass7_cases (st : List Char × Bool) : pass7 st = st ∨ (pass7 st).2 = true := by
  unfold pass7
  dsimp only
  split
  · exact Or.inl rfl
  · exact Or.inr rfl

/-- A pass whose output flag is down returned its state unchanged. -/
theorem pass1_eq_of_flag_false (st : List Char × Bool) (h : (pass1 st).2 = false) :
    pass1 st = st := by
  rcases pass1_cases st with he | ht
  · exact he
  · rw [ht] at h
    exact Bool.noConfusion h

/-- A pass whose output flag is down returned its state unchanged. -/
theorem pass2_eq_of_flag_false (st : List Char × Bool) (h : (pass2 st).2 = false) :
    pass2 st = st := by
  rcases pass2_cases st with he | ht
  · exact he
  · rw [ht] at h
    exact Bool.noConfusion h

/-- A pass whose output flag is down returned its state unchanged. -/
theorem pass3_eq_of_flag_false (st : List Char × Bool) (h : (pass3 st).2 = false) :
    pass3 st = st := by
  rcases pass3_cases st with he | ht
  · exact he
  · rw [ht] at h
    exact Bool.noConfusion h

/-- A pass whose output flag is down returned its state unchanged. -/
theorem pass4_eq_of_flag_false (st : List Char × Bool) (h : (pass4 st).2 = false) :
    pass4 st = st := by
  rcases pass4_cases st with he | ht
  · exact he
  · rw [ht] at h
    exact Bool.noConfusion h

/-- A pass whose output flag is down returned its state unchanged. -/
theorem pass5_eq_of_flag_false (st : List Char × Bool) (h : (pass5 st).2 = false) :
    pass5 st = st := by
  rcases pass5_cases st with he | ht
  · exact he
  · rw [ht] at h
    exact Bool.noConfusion h

/-- A pass whose output flag is down returned its state unchanged. -/
theorem pass6_eq_of_flag_false (st : List Char × Bool) (h : (pass6 st).2 = false) :
    pass6 st = st := by
  rcases pass6_cases st with he | ht
  · exact he
  · rw [ht] at h
    exact Bool.noConfusion h

/-- A pass whose output flag is down returned its state unchanged. -/
theorem pass7_eq_of_flag_false (st : List Char × Bool) (h : (pass7 st).2 = false) :
    pass7 st = st := by
  rcases pass7_cases st with he | ht
  · exact he
  · rw [ht] at h
    exact Bool.noConfusion h

/-- When the flag is down at the end of the pipeline, every stage of the
pass chain is the initial state. -/
theorem purify_chain_id (c : List Char)
    (h : (pass7 (pass6 (pass5 (pass4 (pass3 (pass2 (pass1 (c, false)))))))).2 = false) :
    pass1 (c, false) = (c, false) ∧
      pass2 (pass1 (c, false)) = (c, false) ∧
      pass3 (pass2 (pass1 (c, false))) = (c, false) ∧
      pass4 (pass3 (pass2 (pass1 (c, false)))) = (c, false) ∧
      pass5 (pass4 (pass3 (pass2 (pass1 (c, false))))) = (c, false) ∧
      pass6 (pass5 (pass4 (pass3 (pass2 (pass1 (c, false)))))) = (c, false) ∧
      pass7 (pass6 (pass5 (pass4 (pass3 (pass2 (pass1 (c, false))))))) = (c, false) := by
  have e7 := pass7_eq_of_flag_false _ h
  rw [e7] at h
  have e6 := pass6_eq_of_flag_false _ h
  rw [e6] at h
  have e5 := pass5_eq_of_flag_false _ h
  rw [e5] at h
  have e4 := pass4_eq_of_flag_false _ h
  rw [e4] at h
  have e3 := pass3_eq_of_flag_false _ h
  rw [e3] at h
  have e2 := pass2_eq_of_flag_false _ h
  rw [e2] at h
  have e1 := pass1_eq_of_flag_false _ h
  have q1 : pass1 (c, false) = (c, false) := e1
  have q2 : pass2 (pass1 (c, false)) = (c, false) := e2.trans q1
  have q3 : pass3 (pass2 (pass1 (c, false))) = (c, false) := e3.trans q2
  have q4 : pass4 (pass3 (pass2 (pass1 (c, false)))) = (c, false) := e4.trans q3
  have q5 : pass5 (pass4 (pass3 (pass2 (pass1 (c, false))))) = (c, false) := e5.trans q4
  have q6 : pass6 (pass5 (pass4 (pass3 (pass2 (pass1 (c, false)))))) = (c, false) :=
    e6.trans q5
  have q7 : pass7 (pass6 (pass5 (pass4 (pass3 (pass2 (pass1 (c, false))))))) = (c, false) :=
    e7.trans q6
  exact ⟨q1, q2, q3, q4, q5, q6, q7⟩

/-- C4 amended: `wasFixed` is true whenever some pass altered the string
(and whenever the final link differs from the input); conversely, when
`wasFixed` is false every pass left the string unchanged and the
returned link equals the input.  (The original "if and only if" fails:
the flag can also be raised with nothing changed, see the
counterexample.) -/
theorem c4_wasfixed_characterisation (c : List Char) :
    (((pass1 (c, false)).1 ≠ c ∨
        (pass2 (pass1 (c, false))).1 ≠ (pass1 (c, false)).1 ∨
        (pass3 (pass2 (pass1 (c, false)))).1 ≠ (pass2 (pass1 (c, false))).1 ∨
        (pass4 (pass3 (pass2 (pass1 (c, false))))).1
          ≠ (pass3 (pass2 (pass1 (c, false)))).1 ∨
        (pass5 (pass4 (pass3 (pass2 (pass1 (c, false)))))).1
          ≠ (pass4 (pass3 (pass2 (pass1 (c, false))))).1 ∨
        (pass6 (pass5 (pass4 (pass3 (pass2 (pass1 (c, false))))))).1
          ≠ (pass5 (pass4 (pass3 (pass2 (pass1 (c, false)))))).1 ∨
        (pass7 (pass6 (pass5 (pass4 (pass3 (pass2 (pass1 (c, false)))))))).1
          ≠ (pass6 (pass5 (pass4 (pass3 (pass2 (pass1 (c, false))))))).1) →
      (purifyLink c).wasFixed = true) ∧
    ((purifyLink c).link ≠ c → (purifyLink c).wasFixed = true) ∧
    ((purifyLink c).wasFixed = false →
      (pass1 (c, false)).1 = c ∧
        (pass2 (pass1 (c, false))).1 = c ∧
        (pass3 (pass2 (pass1 (c, false)))).1 = c ∧
        (pass4 (pass3 (pass2 (pass1 (c, false))))).1 = c ∧
        (pass5 (pass4 (pass3 (pass2 (pass1 (c, false)))))).1 = c ∧
        (pass6 (pass5 (pass4 (pass3 (pass2 (pass1 (c, false))))))).1 = c ∧
        (pass7 (pass6 (pass5 (pass4 (pass3 (pass2 (pass1 (c, false)))))))).1 = c ∧
        (purifyLink c).link = c) := by
  have hconv : (purifyLink c).wasFixed = false →
      (pass1 (c, false)).1 = c ∧
        (pass2 (pass1 (c, false))).1 = c ∧
        (pass3 (pass2 (pass1 (c, false)))).1 = c ∧
        (pass4 (pass3 (pass2 (pass1 (c, false))))).1 = c ∧
        (pass5 (pass4 (pass3 (pass2 (pass1 (c, false)))))).1 = c ∧
        (pass6 (pass5 (pass4 (pass3 (pass2 (pass1 (c, false))))))).1 = c ∧
        (pass7 (pass6 (pass5 (pass4 (pass3 (pass2 (pass1 (c, false)))))))).1 = c ∧
        (purifyLink c).link = c := by
    intro hw
    simp only [purifyLink] at hw
    rw [Bool.or_eq_false_iff] at hw
    obtain ⟨q1, q2, q3, q4, q5, q6, q7⟩ := purify_chain_id c hw.1
    refine ⟨by rw [q1], by rw [q2], by rw [q3], by rw [q4], by rw [q5], by rw [q6],
      by rw [q7], ?_⟩
    simp only [purifyLink]
    rw [q7]
  refine ⟨?_, ?_, hconv⟩
  · intro hdisj
    by_cases hw : (purifyLink c).wasFixed = true
    · exact hw
    · exfalso
      have hw' : (purifyLink c).wasFixed = false := by
        cases hx : (purifyLink c).wasFixed
        · rfl
        · exact absurd hx hw
      obtain ⟨q1, q2, q3, q4, q5, q6, q7, -⟩ := hconv hw'
      rcases hdisj with h | h | h | h | h | h | h
      · exact h q1
      · exact h (q2.trans q1.symm)
      · exact h (q3.trans q2.symm)
      · exact h (q4.trans q3.symm)
      · exact h (q5.trans q4.symm)
      · exact h (q6.trans q5.symm)
      · exact h (q7.trans q6.symm)
  · intro hl
    simp only [purifyLink] at hl ⊢
    simp [hl]

/-- Witness for the amended C4: an input where a pass alters the string
(trim removes the leading space), an input whose returned link differs
(tag markup stripped), and an unchanged input with `wasFixed = false`. -/
theorem c4_wasfixed_characterisation_witness :
    (purifyLink " a".toList).wasFixed = true ∧
      (purifyLink "<a>b".toList).wasFixed = true ∧
      (purifyLink "ed2k://abc".toList).wasFixed = false ∧
      (purifyLink "ed2k://abc".toList).link = "ed2k://abc".toList :=
  ⟨(c4_wasfixed_characterisation " a".toList).1 (by decide),
    (c4_wasfixed_characterisation "<a>b".toList).2.1 (by decide),
    by decide,
    ((c4_wasfixed_characterisation "ed2k://abc".toList).2.2 (by decide)).2.2.2.2.2.2.2⟩

/-- C5. When the string (after tag stripping) contains `%` but
percent-decoding fails, the failure is swallowed: the decode pass
returns its input unchanged, and `purifyLink` equals the pipeline with
the decode pass skipped — the remaining passes still run and a
`RepairResult` is produced. -/
theorem c5_decode_failure_caught (x : List Char)
    (h1 : (pass1 (x, false)).1.contains '%' = true)
    (h2 : decodeURIComponentOpt (pass1 (x, false)).1 = none) :
    pass2 (pass1 (x, false)) = pass1 (x, false) ∧
      purifyLink x =
        ⟨(pass7 (pass6 (pass5 (pass4 (pass3 (pass1 (x, false))))))).1,
          validateEd2kLink (pass7 (pass6 (pass5 (pass4 (pass3 (pass1 (x, false))))))).1,
          (pass7 (pass6 (pass5 (pass4 (pass3 (pass1 (x, false))))))).2 ||
            ((pass7 (pass6 (pass5 (pass4 (pass3 (pass1 (x, false))))))).1 != x)⟩ := by
  have hp : pass2 (pass1 (x, false)) = pass1 (x, false) := by
    unfold pass2
    rw [h1, h2]
    rfl
  exact ⟨hp, by unfold purifyLink; rw [hp]⟩

/-- Witness for C5 at the malformed percent-encoding `"%"`. -/
theorem c5_decode_failure_caught_witness :
    pass2 (pass1 ("%".toList, false)) = pass1 ("%".toList, false) :=
  (c5_decode_failure_caught "%".toList (by decide) (by decide)).1

/-- C7. The broken-protocol pre-processing pass is the global replace of
the split-token pattern with `fixBrokenProto`, which rewrites a matched
span to the contiguous `'ed2k://'` exactly when the span contains a
literal `\n` or `\r` and keeps it verbatim otherwise; two end-to-end
instances show a newline-split token being rejoined and an inline-space
split being left untouched. -/
theorem c7_protocol_rejoin_pass :
    (∀ t : List Char, preprocess1 t = replaceScan brokenProtoPat fixBrokenProto t) ∧
      (∀ m : List Char, (m.contains '\n' || m.contains '\r') = true →
        fixBrokenProto m = canonProto) ∧
      (∀ m : List Char, (m.contains '\n' || m.contains '\r') = false →
        fixBrokenProto m = m) ∧
      preprocess1 "e\nd 2k://|x".toList = "ed2k://|x".toList ∧
      preprocess1 "e d 2 k : / /x".toList = "e d 2 k : / /x".toList := by
  refine ⟨fun t => rfl, fun m h => ?_, fun m h => ?_, by decide, by decide⟩
  · unfold fixBrokenProto
    rw [h]
    rfl
  · unfold fixBrokenProto
    rw [h]
    rfl

/-- Witness for C7: a span containing a real line break is rewritten to
the canonical token, a span split only by inline whitespace is kept. -/
theorem c7_protocol_rejoin_pass_witness :
    fixBrokenProto "e\nd2k://".toList = canonProto ∧
      fixBrokenProto "e d2k://".toList = "e d2k://".toList :=
  ⟨c7_protocol_rejoin_pass.2.1 _ (by decide), c7_protocol_rejoin_pass.2.2.1 _ (by decide)⟩

/-- Function `jsFindIndex` returns `none` exactly when no element satisfies the
predicate. -/
theorem jsFindIndex_none_iff {α : Type} (p : α → Bool) (l : List α) :
    jsFindIndex p l = none ↔ ∀ x ∈ l, p x = false := by
  induction l with
  | nil => simp [jsFindIndex]
  | cons a l ih =>
    by_cases ha : p a
    · simp [jsFindIndex, ha]
    · simp [jsFindIndex, ha, ih]

/-- Function `jsFindIndex` returns the first index satisfying the predicate. -/
theorem jsFindIndex_some {α : Type} (d : α) (p : α → Bool) :
    ∀ (l : List α) (i : Nat), jsFindIndex p l = some i →
      i < l.length ∧ p (l.getD i d) = true ∧ ∀ j, j < i → p (l.getD j d) = false := by
  intro l
  induction l with
  | nil => intro i h; simp [jsFindIndex] at h
  | cons a l ih =>
    intro i h
    by_cases ha : p a
    · simp [jsFindIndex, ha] at h
      subst h
      exact ⟨by simp, by simpa using ha, fun j hj => absurd hj (by omega)⟩
    · simp [jsFindIndex, ha] at h
      obtain ⟨i', hi', rfl⟩ := h
      obtain ⟨h1, h2, h3⟩ := ih i' hi'
      refine ⟨by simp; omega, by simpa using h2, ?_⟩
      intro j hj
      cases j with
      | zero => simpa using ha
      | succ j => simpa using h3 j (by omega)

/-- C8. Candidate merging in `extractPotentialLinks` follows the
longest-span rule: the extractor is the fold of `mergeStep` over all
pattern matches in order, and `mergeStep` discards a match that is a
substring of a collected candidate, replaces the first collected
candidate that is a substring of the match, and otherwise appends the
match as new. -/
theorem c8_longest_span_merge :
    (∀ line : List Char,
        extractPotentialLinks line =
          ((extrPatterns.map (fun pat => scanMatches pat line)).flatten).foldl mergeStep []) ∧
      (∀ (links : List (List Char)) (c : List Char),
        (∃ l ∈ links, containsSub c l = true) → mergeStep links c = links) ∧
      (∀ (links : List (List Char)) (c : List Char),
        (∀ l ∈ links, containsSub c l = false) → (∃ l ∈ links, containsSub l c = true) →
        ∃ i, i < links.length ∧ containsSub (links.getD i []) c = true ∧
          (∀ j, j < i → containsSub (links.getD j []) c = false) ∧
          mergeStep links c = links.set i c) ∧
      (∀ (links : List (List Char)) (c : List Char),
        (∀ l ∈ links, containsSub c l = false) → (∀ l ∈ links, containsSub l c = false) →
        mergeStep links c = links ++ [c]) := by
  refine ⟨?_, ?_, ?_, ?_⟩
  · intro line
    unfold extractPotentialLinks
    rw [List.foldl_flatten, List.foldl_map]
  · intro links c hex
    have hne : jsFindIndex (fun l => containsSub c l) links ≠ none := by
      intro hnone
      obtain ⟨l, hl, ht⟩ := hex
      simp [(jsFindIndex_none_iff _ _).mp hnone l hl] at ht
    obtain ⟨i, hi⟩ := Option.ne_none_iff_exists'.mp hne
    unfold mergeStep
    rw [hi]
  · intro links c hno hyes
    have h0 : jsFindIndex (fun l => containsSub c l) links = none :=
      (jsFindIndex_none_iff _ _).mpr hno
    have hne : jsFindIndex (fun l => containsSub l c) links ≠ none := by
      intro hnone
      obtain ⟨l, hl, ht⟩ := hyes
      simp [(jsFindIndex_none_iff _ _).mp hnone l hl] at ht
    obtain ⟨i, hi⟩ := Option.ne_none_iff_exists'.mp hne
    obtain ⟨h1, h2, h3⟩ := jsFindIndex_some [] (fun l => containsSub l c) links i hi
    refine ⟨i, h1, h2, h3, ?_⟩
    unfold mergeStep
    rw [h0, hi]
  · intro links c hno1 hno2
    unfold mergeStep
    rw [(jsFindIndex_none_iff _ _).mpr hno1, (jsFindIndex_none_iff _ _).mpr hno2]

/-- Witness for C8: a discarded substring match, a replacement of a
shorter collected candidate, and a fresh append, at concrete inputs. -/
theorem c8_longest_span_merge_witness :
    mergeStep ["ab".toList] "b".toList = ["ab".toList] ∧
      (∃ i, i < (["b".toList] : List (List Char)).length ∧
        containsSub (["b".toList].getD i []) "ab".toList = true ∧
        (∀ j, j < i → containsSub (["b".toList].getD j []) "ab".toList = false) ∧
        mergeStep ["b".toList] "ab".toList = ["b".toList].set i "ab".toList) ∧
      mergeStep ["x".toList] "y".toList = ["x".toList, "y".toList] :=
  ⟨c8_longest_span_merge.2.1 _ _ ⟨"ab".toList, by decide, by decide⟩,
    c8_longest_span_merge.2.2.1 _ _ (by decide) ⟨"b".toList, by decide, by decide⟩,
    c8_longest_span_merge.2.2.2 _ _ (by decide) (by decide)⟩

/-- C10. The validator rejects links with an empty filename segment or
an empty size segment, whatever 32-hex hash follows: `[^|]+` and `\d+`
each require at least one character. -/
theorem c10_validator_rejects_empty_segments (h : List Char)
    (_h1 : h.length = 32) (_h2 : h.all isHexCI = true) :
    validateEd2kLink ("ed2k://|file||123|".toList ++ h ++ "|/".toList) = false ∧
      validateEd2kLink ("ed2k://|file|a.mp4||".toList ++ h ++ "|/".toList) = false :=
  ⟨rfl, rfl⟩

/-- Witness for C10 at the all-zero 32-character hash. -/
theorem c10_validator_rejects_empty_segments_witness :
    (List.replicate 32 '0').length = 32 ∧ (List.replicate 32 '0').all isHexCI = true ∧
      validateEd2kLink
          ("ed2k://|file||123|".toList ++ List.replicate 32 '0' ++ "|/".toList) = false ∧
      validateEd2kLink
          ("ed2k://|file|a.mp4||".toList ++ List.replicate 32 '0' ++ "|/".toList) = false :=
  ⟨by decide, by decide,
    (c10_validator_rejects_empty_segments (List.replicate 32 '0') (by decide) (by decide)).1,
    (c10_validator_rejects_empty_segments (List.replicate 32 '0') (by decide) (by decide)).2⟩

/-- The `isValid` field of a repair result is the validator applied to
the returned link. -/
theorem purifyLink_isValid (x : List Char) :
    (purifyLink x).isValid = validateEd2kLink (purifyLink x).link := by
  simp only [purifyLink]

/-- Function `processText` is the fold of the candidate step over the candidates
of all (trimmed, non-blank) lines in order. -/
theorem processText_eq_fold (t : List Char) :
    processText t = (allCandidatesOf t).foldl processCandidate ([], statsReset) := by
  unfold processText allCandidatesOf
  rw [List.foldl_flatten, List.foldl_map]
  congr 1
  funext st line
  unfold processLine
  by_cases he : (jsTrim line).isEmpty
  · simp [he]
  · simp [he]

/-- C6. When a run's candidates are exactly two occurrences that repair
to the same valid link, the statistics come out as `valid = 1`,
`duplicates = 1`, `total = 2`, and the unique set holds the single
link: the first occurrence is inserted and counted valid, the second is
an exact string match in the set and only bumps `duplicates`. -/
theorem c6_duplicate_link_stats (t c1 c2 : List Char)
    (hc : allCandidatesOf t = [c1, c2])
    (hv : (purifyLink c1).isValid = true)
    (hl : (purifyLink c2).link = (purifyLink c1).link) :
    (processText t).2.valid = 1 ∧ (processText t).2.duplicates = 1 ∧
      (processText t).2.total = 2 ∧ (processText t).1 = [(purifyLink c1).link] := by
  have hv2 : (purifyLink c2).isValid = true := by
    rw [purifyLink_isValid, hl, ← purifyLink_isValid]
    exact hv
  have he := processText_eq_fold t
  rw [hc] at he
  rw [he]
  simp only [List.foldl_cons, List.foldl_nil]
  by_cases hw : (purifyLink c1).wasFixed
  · simp [processCandidate, hv, hv2, hl, hw, statsReset]
  · simp [processCandidate, hv, hv2, hl, hw, statsReset]

/-- Witness for C6: the same canonical link on two lines. -/
theorem c6_duplicate_link_stats_witness :
    (processText ("ed2k://|file|a|1|AAAAAAAAAAAAAAAAAAAAAAAAAAAAAAAA|/\ned2k://|file|a|1|AAAAAAAAAAAAAAAAAAAAAAAAAAAAAAAA|/".toList)).2.valid = 1 ∧
      (processText ("ed2k://|file|a|1|AAAAAAAAAAAAAAAAAAAAAAAAAAAAAAAA|/\ned2k://|file|a|1|AAAAAAAAAAAAAAAAAAAAAAAAAAAAAAAA|/".toList)).2.duplicates = 1 ∧
      (processText ("ed2k://|file|a|1|AAAAAAAAAAAAAAAAAAAAAAAAAAAAAAAA|/\ned2k://|file|a|1|AAAAAAAAAAAAAAAAAAAAAAAAAAAAAAAA|/".toList)).2.total = 2 ∧
      (processText ("ed2k://|file|a|1|AAAAAAAAAAAAAAAAAAAAAAAAAAAAAAAA|/\ned2k://|file|a|1|AAAAAAAAAAAAAAAAAAAAAAAAAAAAAAAA|/".toList)).1 =
        [(purifyLink "ed2k://|file|a|1|AAAAAAAAAAAAAAAAAAAAAAAAAAAAAAAA|/".toList).link] :=
  c6_duplicate_link_stats _ _ _ (by decide) (by decide) rfl

/-- A Boolean prefix test yields a decomposition of the text. -/
theorem isPrefixOfB_exists {p l : List Char} (h : isPrefixOfB p l = true) :
    ∃ t, l = p ++ t := by
  induction p generalizing l with
  | nil => exact ⟨l, rfl⟩
  | cons a p ih =>
    cases l with
    | nil => simp [isPrefixOfB] at h
    | cons b l =>
      simp only [isPrefixOfB, Bool.and_eq_true, beq_iff_eq] at h
      obtain ⟨rfl, h2⟩ := h
      obtain ⟨t, ht⟩ := ih h2
      exact ⟨t, by simp [ht]⟩

/-- Unfolding of the substring test on a cons cell. -/
theorem containsSub_cons_or (p : List Char) (a : Char) (l : List Char) :
    containsSub p (a :: l) = (isPrefixOfB p (a :: l) || containsSub p l) := by
  by_cases h : isPrefixOfB p (a :: l) = true
  · simp [containsSub, firstIdxOfSub, h]
  · simp only [containsSub, firstIdxOfSub, h, if_false, Bool.false_eq_true, Bool.false_or]
    cases firstIdxOfSub p l <;> simp

/-- A prefix of `m` is a prefix of `m ++ t`. -/
theorem isPrefixOfB_append_left {p m : List Char} (t : List Char)
    (h : isPrefixOfB p m = true) : isPrefixOfB p (m ++ t) = true := by
  induction p generalizing m with
  | nil => rfl
  | cons a p ih =>
    cases m with
    | nil => simp [isPrefixOfB] at h
    | cons b m =>
      simp only [isPrefixOfB, Bool.and_eq_true] at h
      simp only [List.cons_append, isPrefixOfB, Bool.and_eq_true]
      exact ⟨h.1, ih h.2⟩

/-- A substring of `m` is a substring of `m ++ t`. -/
theorem containsSub_append_left {p m : List Char} (t : List Char)
    (h : containsSub p m = true) : containsSub p (m ++ t) = true := by
  induction m with
  | nil =>
    have hp : p = [] := by
      cases p with
      | nil => rfl
      | cons a q => simp [containsSub, firstIdxOfSub, List.isEmpty] at h
    subst hp
    cases t with
    | nil => rfl
    | cons b t => simp [containsSub, firstIdxOfSub, isPrefixOfB]
  | cons a m ih =>
    rw [containsSub_cons_or] at h
    rw [List.cons_append, containsSub_cons_or]
    rcases Bool.or_eq_true_iff.mp h with h1 | h2
    · have h1' := isPrefixOfB_append_left (p := p) (m := a :: m) t h1
      rw [List.cons_append] at h1'
      rw [h1']
      rfl
    · rw [ih h2]
      simp

/-- A substring of `dropWhile q l` is a substring of `l`. -/
theorem containsSub_of_dropWhile (p : List Char) (q : Char → Bool) (l : List Char)
    (h : containsSub p (l.dropWhile q) = true) : containsSub p l = true := by
  induction l with
  | nil => simpa using h
  | cons a l ih =>
    by_cases hq : q a = true
    · rw [List.dropWhile_cons, if_pos hq] at h
      rw [containsSub_cons_or, ih h]
      simp
    · rwa [List.dropWhile_cons, if_neg hq] at h

/-- Any `l` extends its trailing-whitespace-stripped form on the right. -/
theorem dropTrailing_decomp (l : List Char) :
    l = dropTrailingWS l ++ (l.reverse.takeWhile jsWS).reverse := by
  unfold dropTrailingWS
  conv_lhs => rw [← List.reverse_reverse l]
  conv_lhs => rw [← List.takeWhile_append_dropWhile (p := jsWS) (l := l.reverse)]
  rw [List.reverse_append]

/-- A substring of `dropTrailingWS l` is a substring of `l`. -/
theorem containsSub_of_dropTrailing (p l : List Char)
    (h : containsSub p (dropTrailingWS l) = true) : containsSub p l = true := by
  conv_lhs => rw [dropTrailing_decomp l]
  exact containsSub_append_left _ h

/-- A substring of the trimmed string is a substring of the string. -/
theorem containsSub_of_jsTrim (p l : List Char)
    (h : containsSub p (jsTrim l) = true) : containsSub p l = true :=
  containsSub_of_dropWhile p jsWS l (containsSub_of_dropTrailing p _ h)

/-- Dropping leading whitespace keeps a non-whitespace last character. -/
theorem getLast?_dropWhile_nonws {l : List Char} {c : Char} (hc : jsWS c = false)
    (h : l.getLast? = some c) : (l.dropWhile jsWS).getLast? = some c := by
  induction l with
  | nil => simp at h
  | cons a l ih =>
    by_cases hq : jsWS a = true
    · rw [List.dropWhile_cons, if_pos hq]
      cases l with
      | nil =>
        simp at h
        subst h
        rw [hq] at hc
        cases hc
      | cons b l =>
        rw [List.getLast?_cons_cons] at h
        exact ih h
    · rwa [List.dropWhile_cons, if_neg hq]

/-- Dropping trailing whitespace keeps a non-whitespace last character. -/
theorem getLast?_dropTrailing_nonws {l : List Char} {c : Char} (hc : jsWS c = false)
    (h : l.getLast? = some c) : (dropTrailingWS l).getLast? = some c := by
  unfold dropTrailingWS
  rw [List.getLast?_reverse]
  have hrev : l.reverse.head? = some c := by rw [List.head?_reverse, h]
  cases hl : l.reverse with
  | nil => rw [hl] at hrev; cases hrev
  | cons a rest =>
    rw [hl] at hrev
    simp only [List.head?] at hrev
    obtain rfl : a = c := by injection hrev
    rw [List.dropWhile_cons, if_neg (by simp [hc])]
    rfl

/-- Trimming keeps a trailing slash. -/
theorem endsWith_jsTrim_slash {l : List Char} (h : endsWithChar '/' l = true) :
    endsWithChar '/' (jsTrim l) = true := by
  unfold endsWithChar at h ⊢
  have h' : l.getLast? = some '/' := by simpa using h
  unfold jsTrim
  have h1 := getLast?_dropWhile_nonws (l := l) (by decide) h'
  have h2 := getLast?_dropTrailing_nonws (l := l.dropWhile jsWS) (by decide) h1
  simp [h2]

/-- Dropping a prefix by `dropWhile` is idempotent. -/
theorem dropWhile_idem (q : Char → Bool) (l : List Char) :
    (l.dropWhile q).dropWhile q = l.dropWhile q := by
  induction l with
  | nil => rfl
  | cons a l ih =>
    by_cases hq : q a = true
    · rw [List.dropWhile_cons, if_pos hq]
      exact ih
    · rw [List.dropWhile_cons, if_neg hq, List.dropWhile_cons, if_neg hq]

/-- Function `dropTrailingWS` is idempotent. -/
theorem dropTrailing_idem (l : List Char) :
    dropTrailingWS (dropTrailingWS l) = dropTrailingWS l := by
  unfold dropTrailingWS
  rw [List.reverse_reverse, dropWhile_idem]

/-- On a string already free of leading whitespace, stripping trailing
whitespace leaves no leading whitespace either. -/
theorem dropWhile_dropTrailing_fix {l : List Char} (h : l.dropWhile jsWS = l) :
    (dropTrailingWS l).dropWhile jsWS = dropTrailingWS l := by
  cases hd : dropTrailingWS l with
  | nil => rfl
  | cons a m =>
    have ht := dropTrailing_decomp l
    rw [hd] at ht
    have ha : jsWS a = false := by
      by_contra hcon
      have ha' : jsWS a = true := by
        cases hx : jsWS a
        · exact absurd hx hcon
        · rfl
      rw [ht, List.cons_append, List.dropWhile_cons, if_pos ha'] at h
      have hlen := congrArg List.length h
      have : (List.dropWhile jsWS (m ++ (l.reverse.takeWhile jsWS).reverse)).length ≤
          (m ++ (l.reverse.takeWhile jsWS).reverse).length := by
        induction (m ++ (l.reverse.takeWhile jsWS).reverse) with
        | nil => simp
        | cons b r ihr =>
          rw [List.dropWhile_cons]
          by_cases hb : jsWS b = true
          · rw [if_pos hb]
            simp only [List.length_cons]
            omega
          · rw [if_neg hb]
      simp only [List.length_cons] at hlen
      omega
    rw [List.dropWhile_cons, if_neg (by simp [ha])]

/-- JS `trim` is idempotent. -/
theorem jsTrim_idem (l : List Char) : jsTrim (jsTrim l) = jsTrim l := by
  unfold jsTrim
  rw [dropWhile_dropTrailing_fix (dropWhile_idem jsWS l), dropTrailing_idem]

/-- Pass 7 keeps a trailing slash. -/
theorem pass7_pres_slash (s : List Char) (w : Bool)
    (hs : endsWithChar '/' s = true) : endsWithChar '/' (pass7 (s, w)).1 = true := by
  unfold pass7
  dsimp only
  by_cases ht : (jsTrim s == s) = true
  · rw [if_pos ht]
    exact hs
  · rw [if_neg ht]
    exact endsWith_jsTrim_slash hs

/-- The string returned by pass 7 is `trim`-fixed. -/
theorem pass7_trim_fix (st : List Char × Bool) : jsTrim (pass7 st).1 = (pass7 st).1 := by
  unfold pass7
  dsimp only
  by_cases ht : (jsTrim st.1 == st.1) = true
  · rw [if_pos ht]
    exact eq_of_beq ht
  · rw [if_neg ht]
    exact jsTrim_idem st.1

/-- A substring of the pass-7 output is a substring of its input. -/
theorem containsSub_pass7_rev (p : List Char) (st : List Char × Bool)
    (h : containsSub p (pass7 st).1 = true) : containsSub p st.1 = true := by
  revert h
  unfold pass7
  dsimp only
  by_cases ht : (jsTrim st.1 == st.1) = true
  · rw [if_pos ht]
    exact id
  · rw [if_neg ht]
    exact containsSub_of_jsTrim p st.1

/-- After passes 6 and 7, a string still containing `|file|` ends in
`/`: pass 6 appends the slash whenever needed and pass 7 cannot trim it. -/
theorem pass76_ends_slash (st : List Char × Bool)
    (h : containsSub fileMarker (pass7 (pass6 st)).1 = true) :
    endsWithChar '/' (pass7 (pass6 st)).1 = true := by
  unfold pass6 at h ⊢
  by_cases hc : (!(endsWithChar '/' st.1) && containsSub fileMarker st.1) = true
  · rw [if_pos hc] at h ⊢
    apply pass7_pres_slash
    unfold endsWithChar
    rw [List.getLast?_concat]
    rfl
  · rw [if_neg hc] at h ⊢
    by_cases he : endsWithChar '/' st.1 = true
    · rcases st with ⟨s, w⟩
      exact pass7_pres_slash s w he
    · exfalso
      have he' : endsWithChar '/' st.1 = false := by
        cases hx : endsWithChar '/' st.1
        · rfl
        · exact absurd hx he
      have hcf : containsSub fileMarker st.1 = false := by
        cases hx : containsSub fileMarker st.1
        · rfl
        · exfalso
          apply hc
          rw [he', hx]
          rfl
      have := containsSub_pass7_rev fileMarker st h
      rw [hcf] at this
      cases this

/-- A repaired link that contains `|file|` ends with `/`. -/
theorem purifyLink_ends_slash (x : List Char)
    (h : containsSub fileMarker (purifyLink x).link = true) :
    endsWithChar '/' (purifyLink x).link = true := by
  have h' : containsSub fileMarker
      (pass7 (pass6 (pass5 (pass4 (pass3 (pass2 (pass1 (x, false)))))))).1 = true := h
  exact pass76_ends_slash _ h'

/-- The link returned by `purifyLink` is `trim`-fixed. -/
theorem jsTrim_purifyLink (x : List Char) :
    jsTrim (purifyLink x).link = (purifyLink x).link :=
  pass7_trim_fix _

/-- Core of the amended C2: a string in canonical-prefix form, with no
percent sign and no tag pattern, that ends in `/` and is trim-fixed, is
a fixed point of `purifyLink`'s string transformation (pass 3 rewrites
the prefix to itself, all other passes leave it alone). -/
theorem purify_fixpoint (rest : List Char)
    (hp : ("ed2k://|file|".toList ++ rest).contains '%' = false)
    (ht : hasTag ("ed2k://|file|".toList ++ rest) = false)
    (he : endsWithChar '/' ("ed2k://|file|".toList ++ rest) = true)
    (htr : jsTrim ("ed2k://|file|".toList ++ rest) = "ed2k://|file|".toList ++ rest) :
    (purifyLink ("ed2k://|file|".toList ++ rest)).link = "ed2k://|file|".toList ++ rest := by
  have st1 : pass1 ("ed2k://|file|".toList ++ rest, false)
      = ("ed2k://|file|".toList ++ rest, false) := by
    unfold pass1
    rw [ht]
    rfl
  have st2 : pass2 ("ed2k://|file|".toList ++ rest, false)
      = ("ed2k://|file|".toList ++ rest, false) := by
    unfold pass2
    rw [hp]
    rfl
  have st3 : pass3 ("ed2k://|file|".toList ++ rest, false)
      = ("ed2k://|file|".toList ++ rest, true) := rfl
  have st4 : pass4 ("ed2k://|file|".toList ++ rest, true)
      = ("ed2k://|file|".toList ++ rest, true) := rfl
  have st5 : pass5 ("ed2k://|file|".toList ++ rest, true)
      = ("ed2k://|file|".toList ++ rest, true) := rfl
  have st6 : pass6 ("ed2k://|file|".toList ++ rest, true)
      = ("ed2k://|file|".toList ++ rest, true) := by
    unfold pass6
    rw [he]
    rfl
  have st7 : pass7 ("ed2k://|file|".toList ++ rest, true)
      = ("ed2k://|file|".toList ++ rest, true) := by
    simp only [pass7, htr, beq_self_eq_true, if_true]
  simp only [purifyLink]
  rw [st1, st2, st3, st4, st5, st6, st7]

/-- C2 amended: the repairer is idempotent on outputs already in
canonical form — whenever `repair(x).link` starts with `ed2k://|file|`,
contains no `%`, and contains no `<`-then-`>` tag pattern, repairing it
again returns it unchanged.  (Unrestricted idempotence fails; see the
separate counterexample.) -/
theorem c2_idempotent_on_canonical (x : List Char)
    (h1 : isPrefixOfB "ed2k://|file|".toList (purifyLink x).link = true)
    (h2 : (purifyLink x).link.contains '%' = false)
    (h3 : hasTag (purifyLink x).link = false) :
    (purifyLink (purifyLink x).link).link = (purifyLink x).link := by
  obtain ⟨rest, hrest⟩ := isPrefixOfB_exists h1
  have hfm : containsSub fileMarker (purifyLink x).link = true := by
    rw [hrest]
    rfl
  have he := purifyLink_ends_slash x hfm
  have htr := jsTrim_purifyLink x
  rw [hrest] at h2 h3 he htr ⊢
  exact purify_fixpoint rest h2 h3 he htr

/-- Witness for the amended C2 at a canonical link (its repair output is
itself, satisfies the three side conditions, and repairs to itself). -/
theorem c2_idempotent_on_canonical_witness :
    isPrefixOfB "ed2k://|file|".toList
        (purifyLink "ed2k://|file|a|1|AAAAAAAAAAAAAAAAAAAAAAAAAAAAAAAA|/".toList).link
        = true ∧
      (purifyLink "ed2k://|file|a|1|AAAAAAAAAAAAAAAAAAAAAAAAAAAAAAAA|/".toList).link.contains
        '%' = false ∧
      hasTag (purifyLink "ed2k://|file|a|1|AAAAAAAAAAAAAAAAAAAAAAAAAAAAAAAA|/".toList).link
        = false ∧
      (purifyLink
          (purifyLink "ed2k://|file|a|1|AAAAAAAAAAAAAAAAAAAAAAAAAAAAAAAA|/".toList).link).link
        = (purifyLink "ed2k://|file|a|1|AAAAAAAAAAAAAAAAAAAAAAAAAAAAAAAA|/".toList).link :=
  ⟨by decide, by decide, by decide,
    c2_idempotent_on_canonical _ (by decide) (by decide) (by decide)⟩
